import Mathlib

/-!
Verification of the download orchestrator in `downloader.py`
(class `Downloader`).

Shallow embedding conventions:

* The worker loop `_download_all` is embedded as a pure function that
  returns the list of callback invocations it performs, in order.  Each
  invocation is an `Event`: a call of `log_callback`, of
  `progress_callback`, or of the completion callback.
* The call `self.download_audio(url)` made by the loop is abstracted by
  an oracle `dl : String → Except String String`: `Except.error e`
  models the call raising an exception whose string form is `e`
  (caught by the loop's `except Exception as e` clause), `Except.ok r`
  models a normal return of the result string `r`.
* The mutable flag `self.stop_event` (a `threading.Event` set by
  `stop_download` from another thread) is abstracted by
  `stopSet : Nat → Bool`, giving the value `self.stop_event.is_set()`
  returns at the check performed for loop index `idx`.
* Python float arithmetic in `(idx + 1) / total * 100` is modelled
  exactly over `ℚ`.
-/

/-- One callback invocation performed by the worker loop. -/
inductive Event where
  | log (msg : String)
  | progress (p : ℚ)
  | complete
deriving DecidableEq

/-- The events of one loop iteration that was not stopped: the body of the
`try`/`except`, followed by the unconditional progress report.  Mirrors
lines 70-78 of `downloader.py`. -/
def itemEvents (dl : String → Except String String) (total idx : Nat)
    (url : String) : List Event :=
  (match dl url with
   | Except.error e =>
       [Event.log ("Обработка ссылки: " ++ url), Event.log ("Ошибка: " ++ e)]
   | Except.ok r =>
       [Event.log ("Обработка ссылки: " ++ url), Event.log r])
  ++ [Event.progress ((idx + 1 : ℚ) / (total : ℚ) * 100)]

/-- The `for idx, url in enumerate(url_list)` loop of `_download_all`:
at each index the stop flag is checked first; if set, the stop message is
logged and the loop breaks; otherwise the iteration's events happen and
the loop continues. -/
def downloadLoop (dl : String → Except String String) (stopSet : Nat → Bool)
    (total : Nat) : Nat → List String → List Event
  | _, [] => []
  | idx, url :: rest =>
    if stopSet idx then [Event.log "Загрузка остановлена пользователем."]
    else itemEvents dl total idx url ++ downloadLoop dl stopSet total (idx + 1) rest

/-- Embeds `_download_all(url_list, completion_callback)`: run the loop with
`total = len(url_list)`, then call the completion callback. -/
def downloadAll (dl : String → Except String String) (stopSet : Nat → Bool)
    (urls : List String) : List Event :=
  downloadLoop dl stopSet urls.length 0 urls ++ [Event.complete]

/-- The progress-callback arguments occurring in a trace, in order. -/
def progressValues (tr : List Event) : List ℚ :=
  tr.filterMap (fun e => match e with | Event.progress p => some p | _ => none)

/-- The second log line an un-stopped iteration emits for a URL: the
error message when `download_audio` raised, its result string otherwise. -/
def resultLine (dl : String → Except String String) (url : String) : String :=
  match dl url with
  | Except.error e => "Ошибка: " ++ e
  | Except.ok r => r

lemma itemEvents_eq (dl : String → Except String String) (total idx : Nat)
    (url : String) :
    itemEvents dl total idx url =
      [Event.log ("Обработка ссылки: " ++ url), Event.log (resultLine dl url),
       Event.progress ((idx + 1 : ℚ) / (total : ℚ) * 100)] := by
  unfold itemEvents resultLine
  cases dl url <;> rfl

lemma complete_not_mem_itemEvents (dl : String → Except String String)
    (total idx : Nat) (url : String) :
    Event.complete ∉ itemEvents dl total idx url := by
  rw [itemEvents_eq]
  simp

lemma complete_not_mem_downloadLoop (dl : String → Except String String)
    (stopSet : Nat → Bool) (total : Nat) :
    ∀ idx urls, Event.complete ∉ downloadLoop dl stopSet total idx urls := by
  intro idx urls
  induction urls generalizing idx with
  | nil => simp [downloadLoop]
  | cons u rest ih =>
    simp only [downloadLoop]
    by_cases h : stopSet idx = true
    · simp [h]
    · rw [if_neg h]
      simp only [List.mem_append, not_or]
      exact ⟨complete_not_mem_itemEvents dl total idx u, ih (idx + 1)⟩

/-- Without cancellation the loop is the concatenation, in list order, of
every iteration's event block. -/
lemma downloadLoop_noStop (dl : String → Except String String)
    (stopSet : Nat → Bool) (total : Nat) (hstop : ∀ i, stopSet i = false) :
    ∀ idx urls, downloadLoop dl stopSet total idx urls =
      ((List.enumFrom idx urls).map
        (fun p => itemEvents dl total p.1 p.2)).flatten := by
  intro idx urls
  induction urls generalizing idx with
  | nil => simp [downloadLoop]
  | cons u rest ih =>
    simp only [downloadLoop, List.enumFrom, List.map_cons, List.flatten_cons]
    rw [if_neg (by simp [hstop idx]), ih (idx + 1)]

/-- If the stop flag first becomes set at the check for index `m`
(with `m` within the list), the loop fully processes exactly the first
`m` items and then logs the stop message. -/
lemma downloadLoop_stop (dl : String → Except String String)
    (stopSet : Nat → Bool) (total : Nat) :
    ∀ idx urls m, m < urls.length → stopSet (idx + m) = true →
      (∀ j, j < m → stopSet (idx + j) = false) →
      downloadLoop dl stopSet total idx urls =
        ((List.enumFrom idx (urls.take m)).map
          (fun p => itemEvents dl total p.1 p.2)).flatten
        ++ [Event.log "Загрузка остановлена пользователем."] := by
  intro idx urls
  induction urls generalizing idx with
  | nil => intro m hm; simp at hm
  | cons u rest ih =>
    intro m hm hset hbefore
    cases m with
    | zero =>
      simp only [Nat.add_zero] at hset
      simp [downloadLoop, hset]
    | succ k =>
      have h0 : stopSet idx = false := by
        have := hbefore 0 (Nat.succ_pos k)
        simpa using this
      simp only [downloadLoop, List.take_succ_cons, List.enumFrom,
        List.map_cons, List.flatten_cons]
      rw [if_neg (by simp [h0]),
        ih (idx + 1) k (by simpa using Nat.lt_of_succ_lt_succ hm)
          (by rw [show idx + 1 + k = idx + (k + 1) by omega]; exact hset)
          (fun j hj => by
            rw [show idx + 1 + j = idx + (j + 1) by omega]
            exact hbefore (j + 1) (Nat.succ_lt_succ hj)),
        List.append_assoc]

/-- C1: for every URL list (empty lists and lists whose processing raises
caught exceptions included), and for every behaviour of the stop flag,
a run of `_download_all` invokes the completion callback exactly once,
and that invocation is the last event of the run. -/
theorem C1_completion_exactly_once (dl : String → Except String String)
    (stopSet : Nat → Bool) (urls : List String) :
    (downloadAll dl stopSet urls).count Event.complete = 1
    ∧ (downloadAll dl stopSet urls).getLast? = some Event.complete := by
  constructor
  · unfold downloadAll
    rw [List.count_append,
      List.count_eq_zero.mpr
        (complete_not_mem_downloadLoop dl stopSet urls.length 0 urls)]
    simp
  · exact List.getLast?_concat _

/-- C8: running the worker on the empty URL list produces exactly one
completion-callback invocation and nothing else: no progress-callback
invocation and no log-callback invocation, so the expression
`(idx + 1) / total * 100` is never evaluated. -/
theorem C8_empty_list (dl : String → Except String String)
    (stopSet : Nat → Bool) :
    downloadAll dl stopSet [] = [Event.complete]
    ∧ progressValues (downloadAll dl stopSet []) = []
    ∧ ∀ s, Event.log s ∉ downloadAll dl stopSet [] := by
  refine ⟨rfl, rfl, ?_⟩
  intro s h
  simp [downloadAll, downloadLoop] at h

/-- C3: without cancellation the worker processes the URLs sequentially
in the order given: the whole trace is the concatenation, in list order,
of each URL's event block (processing log line, result log line,
progress report), followed by the completion call; in particular nothing
of URL `i+1` occurs before everything of URL `i`. -/
theorem C3_sequential_in_order (dl : String → Except String String)
    (stopSet : Nat → Bool) (urls : List String)
    (hstop : ∀ i, stopSet i = false) :
    downloadAll dl stopSet urls =
      ((List.enumFrom 0 urls).map
        (fun p => itemEvents dl urls.length p.1 p.2)).flatten
      ++ [Event.complete] := by
  unfold downloadAll
  rw [downloadLoop_noStop dl stopSet urls.length hstop 0 urls]

/-- A concrete oracle for witnesses: URL "b" raises, others succeed. -/
def dlW : String → Except String String :=
  fun u => if u = "b" then Except.error "boom" else Except.ok ("готово " ++ u)

/-- A stop flag that is never set. -/
def stopNever : Nat → Bool := fun _ => false

/-- A stop flag that becomes set starting from the check at index 1. -/
def stopAtOne : Nat → Bool := fun i => decide (1 ≤ i)

theorem C3_sequential_in_order_witness :
    downloadAll dlW stopNever ["a", "b"] =
      ((List.enumFrom 0 ["a", "b"]).map
        (fun p => itemEvents dlW (["a", "b"] : List String).length p.1 p.2)).flatten
      ++ [Event.complete] :=
  C3_sequential_in_order dlW stopNever ["a", "b"] (fun _ => rfl)

/-- C2: cancellation is cooperative and checked only between items: if
the stop flag is first seen set at the check for index `m`, then the
first `m` items are each processed to completion (their full event
blocks occur), a stop-log line is emitted, and no later URL contributes
any event — the run ends with the stop log and the completion call. -/
theorem C2_cooperative_cancellation (dl : String → Except String String)
    (stopSet : Nat → Bool) (urls : List String) (m : Nat)
    (hm : m < urls.length) (hset : stopSet m = true)
    (hbefore : ∀ j, j < m → stopSet j = false) :
    downloadAll dl stopSet urls =
      ((List.enumFrom 0 (urls.take m)).map
        (fun p => itemEvents dl urls.length p.1 p.2)).flatten
      ++ [Event.log "Загрузка остановлена пользователем.", Event.complete] := by
  unfold downloadAll
  rw [downloadLoop_stop dl stopSet urls.length 0 urls m hm
    (by simpa using hset) (fun j hj => by simpa using hbefore j hj),
    List.append_assoc]
  rfl

theorem C2_cooperative_cancellation_witness :
    downloadAll dlW stopAtOne ["a", "b", "c"] =
      ((List.enumFrom 0 ((["a", "b", "c"] : List String).take 1)).map
        (fun p => itemEvents dlW (["a", "b", "c"] : List String).length p.1 p.2)).flatten
      ++ [Event.log "Загрузка остановлена пользователем.", Event.complete] :=
  C2_cooperative_cancellation dlW stopAtOne ["a", "b", "c"] 1
    (by decide) (by decide) (by decide)

lemma progressValues_append (a b : List Event) :
    progressValues (a ++ b) = progressValues a ++ progressValues b :=
  List.filterMap_append a b _

lemma progressValues_itemEvents (dl : String → Except String String)
    (total idx : Nat) (url : String) :
    progressValues (itemEvents dl total idx url) =
      [((idx : ℚ) + 1) / (total : ℚ) * 100] := by
  rw [itemEvents_eq]
  simp [progressValues]

lemma progressValues_downloadLoop (dl : String → Except String String)
    (stopSet : Nat → Bool) (total : Nat) (hstop : ∀ i, stopSet i = false) :
    ∀ idx urls, progressValues (downloadLoop dl stopSet total idx urls) =
      (List.range urls.length).map
        (fun i => (((idx + i : Nat) : ℚ) + 1) / (total : ℚ) * 100) := by
  intro idx urls
  induction urls generalizing idx with
  | nil => simp [downloadLoop, progressValues]
  | cons u rest ih =>
    simp only [downloadLoop]
    rw [if_neg (by simp [hstop idx]), progressValues_append,
      progressValues_itemEvents, ih (idx + 1), List.length_cons,
      List.range_succ_eq_map, List.map_cons, List.map_map,
      List.singleton_append, Nat.add_zero, Function.comp_def]
    congr 1
    apply List.map_congr_left
    intro i _
    push_cast
    ring

/-- C4: for every non-empty URL list of length `n` processed without
cancellation, the worker reports progress exactly once per URL, the
`i`-th reported value (0-based) being `(i + 1) / n * 100` — also when
that URL's processing raised a caught exception; consequently the
reported values are strictly increasing and the final value is
exactly 100. -/
theorem C4_progress_per_item (dl : String → Except String String)
    (stopSet : Nat → Bool) (urls : List String)
    (hne : urls ≠ []) (hstop : ∀ i, stopSet i = false) :
    progressValues (downloadAll dl stopSet urls) =
      (List.range urls.length).map
        (fun i : Nat => ((i : ℚ) + 1) / (urls.length : ℚ) * 100)
    ∧ (progressValues (downloadAll dl stopSet urls)).Pairwise (· < ·)
    ∧ (progressValues (downloadAll dl stopSet urls)).getLast? = some 100 := by
  have hlen : urls.length ≠ 0 := by
    simpa [List.length_eq_zero] using hne
  have hQ : (0 : ℚ) < (urls.length : ℚ) := by
    exact_mod_cast Nat.pos_of_ne_zero hlen
  have hmain : progressValues (downloadAll dl stopSet urls) =
      (List.range urls.length).map
        (fun i : Nat => ((i : ℚ) + 1) / (urls.length : ℚ) * 100) := by
    unfold downloadAll
    rw [progressValues_append,
      progressValues_downloadLoop dl stopSet urls.length hstop 0 urls]
    have h2 : progressValues [Event.complete] = [] := rfl
    rw [h2, List.append_nil]
    apply List.map_congr_left
    intro i _
    push_cast
    ring
  refine ⟨hmain, ?_, ?_⟩
  · rw [hmain]
    refine List.Pairwise.map _ ?_ (List.pairwise_lt_range urls.length)
    intro a b hab
    have h1 : ((a : ℚ) + 1) < ((b : ℚ) + 1) := by
      exact_mod_cast Nat.succ_lt_succ hab
    exact mul_lt_mul_of_pos_right
      ((div_lt_div_iff_of_pos_right hQ).mpr h1) (by norm_num)
  · rw [hmain]
    obtain ⟨m, hm⟩ := Nat.exists_eq_succ_of_ne_zero hlen
    rw [hm, List.range_succ m, List.map_append, List.map_cons, List.map_nil,
      List.getLast?_concat]
    have hne2 : ((m : ℚ) + 1) ≠ 0 := by positivity
    push_cast
    rw [div_self hne2, one_mul]

theorem C4_progress_per_item_witness :
    progressValues (downloadAll dlW stopNever ["a", "b"]) =
      (List.range (["a", "b"] : List String).length).map
        (fun i : Nat => ((i : ℚ) + 1) / ((["a", "b"] : List String).length : ℚ) * 100)
    ∧ (progressValues (downloadAll dlW stopNever ["a", "b"])).Pairwise (· < ·)
    ∧ (progressValues (downloadAll dlW stopNever ["a", "b"])).getLast? = some 100 :=
  C4_progress_per_item dlW stopNever ["a", "b"] (by decide) (fun _ => rfl)

lemma mem_downloadLoop_of_mem_itemEvents (dl : String → Except String String)
    (stopSet : Nat → Bool) (total : Nat) (hstop : ∀ i, stopSet i = false) :
    ∀ idx urls i (hi : i < urls.length) x,
      x ∈ itemEvents dl total (idx + i) urls[i] →
      x ∈ downloadLoop dl stopSet total idx urls := by
  intro idx urls
  induction urls generalizing idx with
  | nil => intro i hi; simp at hi
  | cons u rest ih =>
    intro i hi x hx
    simp only [downloadLoop]
    rw [if_neg (by simp [hstop idx]), List.mem_append]
    cases i with
    | zero => left; simpa using hx
    | succ k =>
      right
      refine ih (idx + 1) k (by simpa using Nat.lt_of_succ_lt_succ hi) x ?_
      rw [show idx + 1 + k = idx + (k + 1) by omega]
      simpa using hx

/-- C5: per-URL error isolation without cancellation: every URL in the
list — whatever happened to earlier URLs — gets its processing log line
and its status log line (so one URL's exception never prevents later
URLs from being processed), and when a URL's processing raised the
exception `e`, the log line `Ошибка: e` is emitted for it. -/
theorem C5_error_isolation (dl : String → Except String String)
    (stopSet : Nat → Bool) (urls : List String)
    (hstop : ∀ i, stopSet i = false) (i : Nat) (hi : i < urls.length) :
    Event.log ("Обработка ссылки: " ++ urls[i]) ∈ downloadAll dl stopSet urls
    ∧ Event.log (resultLine dl urls[i]) ∈ downloadAll dl stopSet urls
    ∧ ∀ e, dl urls[i] = Except.error e →
        Event.log ("Ошибка: " ++ e) ∈ downloadAll dl stopSet urls := by
  have hlift : ∀ x, x ∈ itemEvents dl urls.length i urls[i] →
      x ∈ downloadAll dl stopSet urls := by
    intro x hx
    apply List.mem_append_left
    apply mem_downloadLoop_of_mem_itemEvents dl stopSet urls.length hstop 0 urls i hi x
    simpa using hx
  refine ⟨?_, ?_, ?_⟩
  · apply hlift
    rw [itemEvents_eq]
    simp
  · apply hlift
    rw [itemEvents_eq]
    simp
  · intro e he
    have : resultLine dl urls[i] = "Ошибка: " ++ e := by
      unfold resultLine
      rw [he]
    rw [← this]
    apply hlift
    rw [itemEvents_eq]
    simp

theorem C5_error_isolation_witness :
    Event.log ("Обработка ссылки: " ++ "b") ∈ downloadAll dlW stopNever ["a", "b"]
    ∧ Event.log (resultLine dlW "b") ∈ downloadAll dlW stopNever ["a", "b"]
    ∧ ∀ e, dlW "b" = Except.error e →
        Event.log ("Ошибка: " ++ e) ∈ downloadAll dlW stopNever ["a", "b"] :=
  C5_error_isolation dlW stopNever ["a", "b"] (fun _ => rfl) 1 (by decide)

/-!
Embedding of `download_audio`, `_process_single_entry` and
`_ffmpeg_available`.

* The info dictionaries returned by `ydl.extract_info` are modelled by
  `Entry` (one video's dictionary, keeping the fields the code reads)
  and `InfoDict` (playlist with its `entries` list, or a single video).
* The external collaborators — the filesystem (`os.path.exists`), the
  metadata module's `convert_thumbnail` and `add_metadata`, `shutil.which`
  and `ydl.extract_info` itself — are oracles collected in `Env`.
* Besides its return string, each embedded function returns the list of
  external-effect calls it performs (`Call`), in order, so that "invokes
  X exactly once with arguments Y" is statable.
-/

/-- A downloaded-file record inside `requested_downloads`. -/
structure DlFile where
  filepath : String
deriving DecidableEq

/-- One video's info dictionary: the only field the post-processing code
reads structurally is `requested_downloads`; everything else (title,
artist, ...) is only passed through to `add_metadata` and stays
abstract in `tag`. -/
structure Entry where
  requested_downloads : List DlFile
  tag : String
deriving DecidableEq

/-- The result of `ydl.extract_info`: a playlist dictionary
(`_type == 'playlist'`, with its `entries`) or a single video. -/
inductive InfoDict where
  | playlist (entries : List Entry)
  | single (e : Entry)

/-- An external-effect call performed by `download_audio` or
`_process_single_entry`. -/
inductive Call where
  | extract (url : String)
  | convert (p : String)
  | addMeta (path : String) (e : Entry) (thumb : Option String)
  | remove (p : String)
deriving DecidableEq

/-- The external world as seen by `Downloader`: `whichFfmpeg` models
`shutil.which("ffmpeg") is not None`; `bundledFfmpegOk` models whether
the bundled `self.ffmpeg_path` binary that the constructor probed (and
that `ydl_opts` uses) actually runs; `pathExists` models
`os.path.exists`; `convert_thumbnail` and `add_metadata` are the
external metadata module; `extract` models `ydl.extract_info(url,
download=True)`. -/
structure Env where
  whichFfmpeg : Bool
  bundledFfmpegOk : Bool
  pathExists : String → Bool
  convert_thumbnail : String → String
  add_metadata : String → Entry → Option String → String
  extract : String → InfoDict

/-- A path-separator character (`ntpath`: `sep` is a backslash, `altsep`
a slash). -/
def isSep (c : Char) : Bool := c = '/' || c = '\\'

/-- Index of the last character satisfying `p`, if any. -/
def lastIdxOfAux (p : Char → Bool) : List Char → Nat → Option Nat → Option Nat
  | [], _, acc => acc
  | c :: cs, i, acc => lastIdxOfAux p cs (i + 1) (if p c then some i else acc)

def lastIdxOf (p : Char → Bool) (cs : List Char) : Option Nat :=
  lastIdxOfAux p cs 0 none

/-- The base-name half of `os.path.splitext`: split at the last dot of
the last path component, unless that component consists only of leading
dots up to it. -/
def splitextBase (s : String) : String :=
  let cs := s.data
  match lastIdxOf (fun c => c = '.') cs with
  | none => s
  | some dotIndex =>
    let filenameIndex := match lastIdxOf isSep cs with
      | none => 0
      | some k => k + 1
    if filenameIndex ≤ dotIndex
        && ((cs.drop filenameIndex).take (dotIndex - filenameIndex)).any
             (fun c => !(c = '.')) then
      String.mk (cs.take dotIndex)
    else s

/-- Embeds `_process_single_entry(info_dict)`: takes the first entry of
`requested_downloads`, checks the file exists, converts a sibling
`.webp` thumbnail when present, calls `add_metadata`, removes the
temporary thumbnail files, and returns the status line.  Also returns
the external calls it made, in order. -/
def processSingleEntry (env : Env) (info : Entry) : String × List Call :=
  match info.requested_downloads with
  | [] => ("Не удалось определить скачанный файл для одной из записей.", [])
  | d :: _ =>
    let downloaded_path := d.filepath
    if env.pathExists downloaded_path = false then
      ("Файл не был скачан: " ++ downloaded_path, [])
    else
      let base_name := splitextBase downloaded_path
      let webp_thumbnail := base_name ++ ".webp"
      let thumbnail_path : Option String :=
        if env.pathExists webp_thumbnail then
          some (env.convert_thumbnail webp_thumbnail)
        else none
      let meta_result := env.add_metadata downloaded_path info thumbnail_path
      let convCalls : List Call :=
        if env.pathExists webp_thumbnail then [Call.convert webp_thumbnail]
        else []
      let removeCalls : List Call :=
        (match thumbnail_path with
         | some t => if env.pathExists t then [Call.remove t] else []
         | none => []) ++
        (if env.pathExists webp_thumbnail then [Call.remove webp_thumbnail]
         else [])
      ("Готово: " ++ downloaded_path ++ ". " ++ meta_result,
       convCalls ++ [Call.addMeta downloaded_path info thumbnail_path]
         ++ removeCalls)

/-- Embeds `_ffmpeg_available(self)`: `shutil.which("ffmpeg") is not None` —
it consults only the system `PATH`, never `self.ffmpeg_path`. -/
def ffmpeg_available (env : Env) : Bool := env.whichFfmpeg

/-- Embeds `download_audio(url)`: the PATH guard, then extraction, then the
playlist/single dispatch to `_process_single_entry`.  Returns the result
string and the external calls performed, in order. -/
def download_audio (env : Env) (url : String) : String × List Call :=
  if ffmpeg_available env = false then
    ("ffmpeg не найден. Установите ffmpeg для продолжения.", [])
  else
    match env.extract url with
    | InfoDict.playlist entries =>
      let results := entries.map (processSingleEntry env)
      (String.intercalate "\n" (results.map Prod.fst),
       Call.extract url :: (results.map Prod.snd).flatten)
    | InfoDict.single e =>
      ((processSingleEntry env e).1,
       Call.extract url :: (processSingleEntry env e).2)

/-- Whether a call is an `add_metadata` invocation. -/
def isAddMeta : Call → Bool
  | Call.addMeta _ _ _ => true
  | _ => false

/-- C6: once the guard has passed, `download_audio` returns one status
line per downloaded item: for a playlist result it returns exactly the
per-entry messages of `_process_single_entry`, in playlist order, joined
by newlines (one message per entry), and for a single-video result it
returns the single entry's message. -/
theorem C6_status_line_per_item (env : Env) (url : String)
    (hff : env.whichFfmpeg = true) :
    (∀ entries, env.extract url = InfoDict.playlist entries →
      (download_audio env url).1 =
        String.intercalate "\n"
          (entries.map (fun e => (processSingleEntry env e).1))
      ∧ (entries.map (fun e => (processSingleEntry env e).1)).length
          = entries.length)
    ∧ ∀ e, env.extract url = InfoDict.single e →
        (download_audio env url).1 = (processSingleEntry env e).1 := by
  constructor
  · intro entries hx
    constructor
    · simp [download_audio, ffmpeg_available, hff, hx, List.map_map,
        Function.comp_def]
    · simp
  · intro e hx
    simp [download_audio, ffmpeg_available, hff, hx]

/-- A sample playlist entry for witnesses. -/
def entryA : Entry := { requested_downloads := [{ filepath := "a.mp3" }], tag := "A" }

/-- A sample environment for witnesses: ffmpeg is on PATH, `a.mp3` and
its sibling `a.webp` exist on disk, extraction of any URL yields a
one-entry playlist. -/
def envW : Env :=
  { whichFfmpeg := true
    bundledFfmpegOk := true
    pathExists := fun p => decide (p = "a.mp3") || decide (p = "a.webp")
    convert_thumbnail := fun p => p ++ ".png"
    add_metadata := fun _ _ _ => "теги добавлены"
    extract := fun _ => InfoDict.playlist [entryA] }

theorem C6_status_line_per_item_witness :
    (download_audio envW "u").1 =
      String.intercalate "\n"
        ([entryA].map (fun e => (processSingleEntry envW e).1))
    ∧ ([entryA].map (fun e => (processSingleEntry envW e).1)).length
        = ([entryA] : List Entry).length :=
  (C6_status_line_per_item envW "u" rfl).1 [entryA] rfl

/-- C7: for an entry whose downloaded file exists, `_process_single_entry`
calls `add_metadata` exactly once, with the downloaded path, the entry's
metadata and — as thumbnail — the converted sibling `.webp` when that
file exists and `None` otherwise; the returned status line is built from
the downloaded path and `add_metadata`'s result. -/
theorem C7_metadata_postprocessing (env : Env) (info : Entry)
    (d : DlFile) (rest : List DlFile)
    (hd : info.requested_downloads = d :: rest)
    (hex : env.pathExists d.filepath = true) :
    ((processSingleEntry env info).2.countP (fun c => isAddMeta c) = 1)
    ∧ Call.addMeta d.filepath info
        (if env.pathExists (splitextBase d.filepath ++ ".webp")
         then some (env.convert_thumbnail (splitextBase d.filepath ++ ".webp"))
         else none) ∈ (processSingleEntry env info).2
    ∧ (processSingleEntry env info).1 =
        "Готово: " ++ d.filepath ++ ". "
          ++ env.add_metadata d.filepath info
               (if env.pathExists (splitextBase d.filepath ++ ".webp")
                then some (env.convert_thumbnail (splitextBase d.filepath ++ ".webp"))
                else none) := by
  unfold processSingleEntry
  rw [hd]
  by_cases hw : env.pathExists (splitextBase d.filepath ++ ".webp") = true
  · by_cases ht :
        env.pathExists
          (env.convert_thumbnail (splitextBase d.filepath ++ ".webp")) = true
    · simp [hex, hw, ht, List.countP_append, isAddMeta, List.countP_cons]
    · simp [hex, hw, ht, List.countP_append, isAddMeta, List.countP_cons]
  · simp [hex, hw, List.countP_append, isAddMeta, List.countP_cons]

theorem C7_metadata_postprocessing_witness :
    ((processSingleEntry envW entryA).2.countP (fun c => isAddMeta c) = 1)
    ∧ Call.addMeta "a.mp3" entryA
        (if envW.pathExists (splitextBase "a.mp3" ++ ".webp")
         then some (envW.convert_thumbnail (splitextBase "a.mp3" ++ ".webp"))
         else none) ∈ (processSingleEntry envW entryA).2
    ∧ (processSingleEntry envW entryA).1 =
        "Готово: " ++ "a.mp3" ++ ". "
          ++ envW.add_metadata "a.mp3" entryA
               (if envW.pathExists (splitextBase "a.mp3" ++ ".webp")
                then some (envW.convert_thumbnail (splitextBase "a.mp3" ++ ".webp"))
                else none) :=
  C7_metadata_postprocessing envW entryA { filepath := "a.mp3" } [] rfl (by decide)

/-- C9: `download_audio` returns the error string about a missing ffmpeg
without performing any external call if and only if `shutil.which`
finds no `ffmpeg` on the system `PATH`; the bundled
`self.ffmpeg_path` the constructor verified plays no role — replacing
its state (`bundledFfmpegOk`) by anything leaves `download_audio`
unchanged, so a working bundled ffmpeg with no PATH ffmpeg still yields
the error return. -/
theorem C9_ffmpeg_guard_ignores_bundled (env : Env) (url : String) (b : Bool) :
    (((download_audio env url).1 =
        "ffmpeg не найден. Установите ffmpeg для продолжения."
      ∧ (download_audio env url).2 = [])
      ↔ env.whichFfmpeg = false)
    ∧ download_audio { env with bundledFfmpegOk := b } url
        = download_audio env url := by
  obtain ⟨w, bb, pe, ct, am, ex⟩ := env
  refine ⟨⟨?_, ?_⟩, rfl⟩
  · rintro ⟨h1, h2⟩
    cases hw : w with
    | false => rfl
    | true =>
      exfalso
      rw [hw] at h2
      cases hx : ex url with
      | playlist entries =>
        simp [download_audio, ffmpeg_available, hx] at h2
      | single e =>
        simp [download_audio, ffmpeg_available, hx] at h2
  · intro hfalse
    cases hfalse
    constructor <;> rfl

/-!
Embedding of `_progress_hook`.

The hook dictionary supplied by the download library is modelled by the
two fields the code reads; Python's `float()` is abstracted by an oracle
`float_of : String → Option ℚ` (`none` models `float` raising
`ValueError`), and `floatCall` re-raises that as an `Except` error so
that the `try`/`except ValueError` of the hook is modelled explicitly.
The hook's result is the list of progress-callback invocations, or an
uncaught exception.
-/

/-- A progress-hook dictionary: its `status` value and its
`_percent_str` value when that key is present. -/
structure HookDict where
  status : String
  percent_str : Option String
deriving DecidableEq

/-- Embeds `float(s)`: the parsed value, or a raised `ValueError`. -/
def floatCall (float_of : String → Option ℚ) (s : String) : Except String ℚ :=
  match float_of s with
  | some v => Except.ok v
  | none => Except.error "ValueError"

/-- Embeds `_progress_hook(d)`: on status `downloading`, strip the percent
string (defaulting to `0%`), drop the `%` signs, parse, fall back to
`0.0` on `ValueError`, and call the progress callback once; on any other
status do nothing. -/
def progress_hook (float_of : String → Option ℚ) (d : HookDict) :
    Except String (List ℚ) :=
  if d.status = "downloading" then
    let p_str := (d.percent_str.getD "0%").trim
    let p_val := match floatCall float_of (p_str.replace "%" "") with
      | Except.ok v => v
      | Except.error _ => 0
    Except.ok [p_val]
  else Except.ok []

/-- C10: the progress hook is total on its percent-string input: it
never propagates a `ValueError`; with status `downloading` it calls the
progress callback exactly once, with the parsed value of the stripped
`_percent_str` field with `%` removed — `0` when the field is missing
or unparsable — and with any other status it calls no callback. -/
theorem C10_progress_hook_total (float_of : String → Option ℚ) (d : HookDict) :
    ∃ calls : List ℚ, progress_hook float_of d = Except.ok calls
      ∧ (d.status = "downloading" →
          calls =
            [(float_of ((d.percent_str.getD "0%").trim.replace "%" "")).getD 0])
      ∧ (d.status ≠ "downloading" → calls = []) := by
  by_cases h : d.status = "downloading"
  · refine
      ⟨[(float_of ((d.percent_str.getD "0%").trim.replace "%" "")).getD 0],
        ?_, fun _ => rfl, fun hc => absurd h hc⟩
    unfold progress_hook floatCall
    rw [if_pos h]
    cases hf : float_of ((d.percent_str.getD "0%").trim.replace "%" "") <;>
      simp [hf]
  · exact ⟨[], by simp [progress_hook, h], fun hc => absurd hc h, fun _ => rfl⟩
